import Mathlib

/-
Verification development for the ContentLens AI-reply-filter core.

The definitions below are shallow embeddings of the TypeScript source:
  * src/utils/hash.ts        — hashText (djb2 over UTF-16 code units), normalizeText
  * src/scoring/heuristics.ts — scoreText, computeEmDashSignal,
                                computePhrasePatternsScore (aggregation over
                                per-pattern match counts), the short-text buckets
                                and the full weighted branch
  * src/content/cache.ts     — session score cache (getCached / setCache / clearMemCache)
  * src/shared/storage.ts    — durable score cache (getCachedScore / setCachedScore /
                                saveScoreCache / clearScoreCache)
  * src/content/domScanner.ts — isScorable (dominance rule) and the two-pass
                                scanDOM dedup-by-content-key pipeline

Modelling conventions:
  * JS numbers are idealised as exact rationals (ℚ); Math.round(x) is ⌊x + 1/2⌋.
  * JS strings are Lean Strings; lengths agree on BMP text.  charCodeAt is
    modelled by explicit UTF-16 encoding of each scalar value.
  * The statistical feature extractor mixes float sqrt/log2 and a large regex
    library; its eight outputs are supplied to the scorer as an explicit
    `HeuristicFeatures` record (an oracle for `extractFeatures(trimmed)`), while
    every branch and arithmetic step of `scoreText` itself is embedded exactly.
    The phrase-pattern aggregation is embedded over the per-pattern raw match
    counts (the only regex-dependent inputs it consumes).
  * A JS `Map` is an insertion-ordered association list.  A plain-object
    record is a creation-ordered association list, but `Object.keys` enumerates
    array-index keys (canonical decimal strings below 2^32 - 1) first, in
    ascending numeric order, before the other string keys in creation order;
    `objectKeysOrder` models that enumeration.
  * DOM element identity in the scanner is modelled by element values carrying
    a numeric id; two model elements are "the same element" iff they are equal.
-/

/-- The WhiteSpace/LineTerminator set of ECMAScript: this is both what
`String.prototype.trim` strips and what the regex class `\s` matches. -/
def isJsWhitespace (c : Char) : Bool :=
  c = '\t' || c = '\n' || c.toNat = 0x0B || c.toNat = 0x0C || c = '\r' || c = ' ' ||
  c.toNat = 0xA0 || c.toNat = 0x1680 || (0x2000 ≤ c.toNat && c.toNat ≤ 0x200A) ||
  c.toNat = 0x2028 || c.toNat = 0x2029 || c.toNat = 0x202F || c.toNat = 0x205F ||
  c.toNat = 0x3000 || c.toNat = 0xFEFF

/-- Strip leading and trailing JS whitespace from a character list. -/
def trimChars (l : List Char) : List Char :=
  ((l.dropWhile isJsWhitespace).reverse.dropWhile isJsWhitespace).reverse

/-- `String.prototype.trim`. -/
def jsTrim (s : String) : String :=
  String.mk (trimChars s.data)

/-- Character class `[​-‍﻿]` of `normalizeText`'s zero-width strip. -/
def isZeroWidthChar (c : Char) : Bool :=
  (0x200B ≤ c.toNat && c.toNat ≤ 0x200D) || c.toNat = 0xFEFF

/-- `.replace(/[​-‍﻿]/g, '')`. -/
def stripZeroWidth (l : List Char) : List Char :=
  l.filter (fun c => !isZeroWidthChar c)

/-- `.replace(/\s+/g, ' ')`: every maximal run of JS whitespace becomes a single
space.  The boolean tracks whether the previous character was inside a run. -/
def collapseWsAux : Bool → List Char → List Char
  | _, [] => []
  | prevWs, c :: rest =>
    if isJsWhitespace c then
      if prevWs then collapseWsAux true rest else ' ' :: collapseWsAux true rest
    else c :: collapseWsAux false rest

/-- Collapse whitespace runs, starting outside a run. -/
def collapseWs (l : List Char) : List Char :=
  collapseWsAux false l

/-- Character-level normalisation pipeline of `normalizeText` (src/utils/hash.ts):
lowercase, collapse `\s+` runs to a single space, strip zero-width characters,
trim.  `Char.toLower` is the ASCII case map; the JS `toLowerCase` agrees with it
on ASCII and is the identity on the other characters involved here. -/
def normalizeChars (l : List Char) : List Char :=
  trimChars (stripZeroWidth (collapseWs (l.map Char.toLower)))

/-- `normalizeText` from src/utils/hash.ts. -/
def normalizeText (raw : String) : String :=
  String.mk (normalizeChars raw.data)

/-- `Math.min` on exact rationals (written explicitly so that it evaluates by
kernel reduction; it agrees with `min`, see `jsMin_eq_min`). -/
def jsMin (a b : ℚ) : ℚ :=
  if a ≤ b then a else b

/-- `Math.max` on exact rationals (agrees with `max`, see `jsMax_eq_max`). -/
def jsMax (a b : ℚ) : ℚ :=
  if a ≤ b then b else a

/-- UTF-16 code units of one scalar value, as produced by `charCodeAt`. -/
def utf16Units (c : Char) : List ℕ :=
  if c.toNat < 0x10000 then [c.toNat]
  else [0xD800 + (c.toNat - 0x10000) / 0x400, 0xDC00 + (c.toNat - 0x10000) % 0x400]

/-- One iteration of the djb2 loop in `hashText`:
`hash = ((hash << 5) + hash) ^ code; hash = hash >>> 0`.  On a 32-bit unsigned
accumulator this is multiplication by 33 modulo 2^32 followed by xor with the
code unit. -/
def hashStep (h : ℕ) (code : ℕ) : ℕ :=
  ((h * 33) % 2 ^ 32) ^^^ code

/-- Left-pad with `'0'` to the given width (`padStart(width, '0')`). -/
def padStartZero (width : ℕ) (l : List Char) : List Char :=
  List.replicate (width - l.length) '0' ++ l

/-- `hashText` from src/utils/hash.ts: djb2 over the UTF-16 code units,
rendered as a zero-padded lowercase hex string of width 8. -/
def hashText (text : String) : String :=
  String.mk (padStartZero 8 (Nat.toDigits 16 ((text.data.flatMap utf16Units).foldl hashStep 5381)))

/-- The eight feature outputs of `extractFeatures(trimmed)` in
src/scoring/heuristics.ts, idealised as exact rationals.  They are inputs to
the scorer: their own computation involves float sqrt/log2 and a large regex
library and is not re-derived here. -/
structure HeuristicFeatures where
  typeTokenRatio : ℚ
  repetitionScore : ℚ
  sentenceLengthVariance : ℚ
  entropyScore : ℚ
  phrasePatternsScore : ℚ
  avgSentenceLength : ℚ
  punctuationDensity : ℚ
  listLikeScore : ℚ
deriving DecidableEq

/-- Number of em-dash characters in the text (`text.match(/—/g)`). -/
def countEmDash (s : String) : ℕ :=
  s.data.count '—'

/-- `computeEmDashSignal` from src/scoring/heuristics.ts:
zero when there is no em dash, otherwise the count divided by 3, clamped to 1. -/
def computeEmDashSignal (text : String) : ℚ :=
  let emDashCount := countEmDash text
  if emDashCount = 0 then 0 else jsMin 1 ((emDashCount : ℚ) / 3)

/-- The per-pattern cap of `countMatches`: `Math.min(2, matches?.length ?? 0)`. -/
def countMatchesCapped (matchCount : ℕ) : ℕ :=
  min 2 matchCount

/-- `computePhrasePatternsScore` from src/scoring/heuristics.ts, as a function
of the per-pattern raw match counts of the base library (`AI_PHRASE_PATTERNS`)
and of the high-signal library (`HIGH_SIGNAL_PATTERNS`): each pattern
contributes its capped count, and the total is divided by 5 and clamped to 1. -/
def computePhrasePatternsScore (baseCounts highSignalCounts : List ℕ) : ℚ :=
  let score := (baseCounts.map countMatchesCapped).sum + (highSignalCounts.map countMatchesCapped).sum
  jsMin 1 ((score : ℚ) / 5)

/-- `Math.round`: round half toward positive infinity. -/
def jsRound (q : ℚ) : ℤ :=
  ⌊q + 1 / 2⌋

/-- The short-text bucket map of `scoreText`:
`≥0.65 → 8, ≥0.45 → 6, ≥0.25 → 4`, else 1. -/
def shortBucket (shortSignal : ℚ) : ℤ :=
  if 0.65 ≤ shortSignal then 8
  else if 0.45 ≤ shortSignal then 6
  else if 0.25 ≤ shortSignal then 4
  else 1

/-- The full weighted branch of `scoreText` (src/scoring/heuristics.ts,
lines 336–373): inversion of the low-means-AI features, the average-sentence-
length signal, the two discrete boosts, the weighted sum clamped above at 1,
the affine map to 1–10, rounding, and the final clamp. -/
def scoreFull (f : HeuristicFeatures) (emDashSignal : ℚ) : ℤ :=
  let invertedTTR := 1 - f.typeTokenRatio
  let invertedVariance := 1 - jsMin 1 f.sentenceLengthVariance
  let invertedEntropy := 1 - f.entropyScore
  let avgLenSignal := if 10 < f.avgSentenceLength then jsMin 1 ((f.avgSentenceLength - 10) / 20) else 0
  let phraseBoost :=
    if 0.6 ≤ f.phrasePatternsScore then 0.12
    else if 0.4 ≤ f.phrasePatternsScore then 0.06
    else 0
  let emDashBoost :=
    if 0.66 ≤ emDashSignal then 0.12
    else if 0.33 ≤ emDashSignal then 0.06
    else 0
  let rawScore := jsMin 1
    (invertedTTR * 0.13 +
     f.repetitionScore * 0.10 +
     invertedVariance * 0.12 +
     invertedEntropy * 0.09 +
     f.phrasePatternsScore * 0.38 +
     avgLenSignal * 0.05 +
     f.punctuationDensity * 0.04 +
     f.listLikeScore * 0.09 +
     phraseBoost +
     emDashBoost)
  let score := jsRound (1 + rawScore * 9)
  max 1 (min 10 score)

/-- `scoreText` from src/scoring/heuristics.ts.  `f` stands for
`extractFeatures(trimmed)` (see `HeuristicFeatures`); every branch condition
and arithmetic step of the function body is embedded exactly. -/
def scoreText (f : HeuristicFeatures) (text : String) : ℤ :=
  let trimmed := jsTrim text
  if trimmed.length < 12 then 1
  else
    let emDashSignal := computeEmDashSignal trimmed
    if trimmed.length < 30 then
      shortBucket (jsMax f.phrasePatternsScore emDashSignal)
    else
      scoreFull f emDashSignal

/-- The guard of the short-text branch of `scoreText`: past the minimal floor
of 12 characters but below the short-text threshold of 30. -/
def takesShortBranch (text : String) : Prop :=
  12 ≤ (jsTrim text).length ∧ (jsTrim text).length < 30

/-- The text of the spec's short-branch scenario. -/
def c4ScenarioText : String :=
  "Great point! Thanks for sharing this — I totally agree"

/-- An all-zero feature record, used to instantiate oracle hypotheses. -/
def neutralFeatures : HeuristicFeatures :=
  ⟨0, 0, 0, 0, 0, 0, 0, 0⟩

/-- One entry of the in-memory session cache (src/content/cache.ts). -/
structure SessionEntry where
  score : ℤ
  ts : ℕ
deriving DecidableEq

/-- The session cache `memCache`, as an insertion-ordered association list
(oldest first), the iteration order of a JS `Map`. -/
abbrev SessionState := List (String × SessionEntry)

/-- `TTL_MS = 30 * 60 * 1000` from src/content/cache.ts. -/
def TTL_MS : ℕ := 30 * 60 * 1000

/-- `MAX_ENTRIES = 500` from src/content/cache.ts. -/
def MAX_ENTRIES : ℕ := 500

/-- First-match association lookup (`Map.get` / object property read). -/
def assocFind {α : Type} (k : String) : List (String × α) → Option α
  | [] => none
  | (k', v) :: rest => if k' = k then some v else assocFind k rest

/-- `Map.set` / object property write: update an existing key in place
(keeping its position), otherwise append at the end. -/
def assocSet {α : Type} (k : String) (v : α) : List (String × α) → List (String × α)
  | [] => [(k, v)]
  | (k', v') :: rest => if k' = k then (k, v) :: rest else (k', v') :: assocSet k v rest

/-- `Map.delete`: remove the entry with the given key. -/
def assocDelete {α : Type} (k : String) : List (String × α) → List (String × α)
  | [] => []
  | (k', v') :: rest => if k' = k then rest else (k', v') :: assocDelete k rest

/-- `getCached` from src/content/cache.ts.  `now` is `Date.now()`.  A hit whose
age exceeds the TTL is deleted and reported as a miss; the returned state is
the possibly-mutated cache. -/
def getCached (now : ℕ) (hash : String) (st : SessionState) : Option ℤ × SessionState :=
  match assocFind hash st with
  | none => (none, st)
  | some entry =>
    if TTL_MS < now - entry.ts then (none, assocDelete hash st)
    else (some entry.score, st)

/-- `setCache` from src/content/cache.ts: when the map is at capacity the
oldest-inserted entry is evicted first (unless its key is the empty string,
which the JS truthiness test `if (oldestKey)` skips), then the new entry is
written. -/
def setCache (now : ℕ) (hash : String) (score : ℤ) (st : SessionState) : SessionState :=
  let st1 :=
    if MAX_ENTRIES ≤ st.length then
      match st with
      | [] => st
      | (k₀, _) :: rest => if k₀ = "" then st else rest
    else st
  assocSet hash ⟨score, now⟩ st1

/-- `clearMemCache` from src/content/cache.ts. -/
def clearMemCache (_st : SessionState) : SessionState := []

/-- The durable score cache persisted under `cl_score_cache`
(src/shared/storage.ts): a flat hex-key → score record, modelled as an
insertion-ordered association list. -/
abbrev DurableState := List (String × ℤ)

/-- `MAX_CACHE_SIZE = 2000` from src/shared/storage.ts. -/
def MAX_CACHE_SIZE : ℕ := 2000

/-- Whether a key occurs in an association list. -/
def containsKey {α : Type} (st : List (String × α)) (k : String) : Bool :=
  st.any (fun p => p.1 = k)

/-- Numeric value of a decimal key string. -/
def decimalValue (k : String) : ℕ :=
  k.data.foldl (fun a c => a * 10 + (c.toNat - 48)) 0

/-- Whether a string is an ECMAScript array-index property key: the canonical
decimal representation (no leading zero except `"0"` itself) of an integer
below 2^32 - 1.  `Object.keys` enumerates such keys before all other string
keys, in ascending numeric order, regardless of insertion age. -/
def isArrayIndexKey (k : String) : Bool :=
  !k.data.isEmpty &&
  k.data.all (fun c => decide ('0' ≤ c) && decide (c ≤ '9')) &&
  (k == "0" || !(k.data.head? == some '0')) &&
  decide (decimalValue k < 2 ^ 32 - 1)

/-- Insert an entry into a list sorted by ascending numeric key value. -/
def insertOrderedByValue (p : String × ℤ) : DurableState → DurableState
  | [] => [p]
  | q :: rest =>
    if decimalValue p.1 ≤ decimalValue q.1 then p :: q :: rest
    else q :: insertOrderedByValue p rest

/-- Sort entries by ascending numeric key value (insertion sort). -/
def sortByNumericValue : DurableState → DurableState
  | [] => []
  | p :: rest => insertOrderedByValue p (sortByNumericValue rest)

/-- The `Object.keys` enumeration order of a record: array-index keys first in
ascending numeric order, then the remaining string keys in creation order. -/
def objectKeysOrder (cache : DurableState) : DurableState :=
  sortByNumericValue (cache.filter (fun p => isArrayIndexKey p.1)) ++
    cache.filter (fun p => !isArrayIndexKey p.1)

/-- `saveScoreCache` from src/shared/storage.ts: `keys = Object.keys(cache)`
yields the enumeration order (array-index keys first, then creation order);
when `keys.length` exceeds capacity, only the pairs of the last
`MAX_CACHE_SIZE` enumerated keys are kept (`keys.slice(keys.length - MAX)`),
in that order — which is the oldest-inserted entries only when no key is an
array index. -/
def saveScoreCache (cache : DurableState) : DurableState :=
  if MAX_CACHE_SIZE < (objectKeysOrder cache).length then
    (objectKeysOrder cache).drop ((objectKeysOrder cache).length - MAX_CACHE_SIZE)
  else cache

/-- `getCachedScore` from src/shared/storage.ts: `cache[hash] ?? null`. -/
def getCachedScore (hash : String) (st : DurableState) : Option ℤ :=
  assocFind hash st

/-- `setCachedScore` from src/shared/storage.ts: load, write one key, save. -/
def setCachedScore (hash : String) (score : ℤ) (st : DurableState) : DurableState :=
  saveScoreCache (assocSet hash score st)

/-- `clearScoreCache` from src/shared/storage.ts: the storage key is removed,
so a subsequent load yields the empty record. -/
def clearScoreCache : DurableState := []

/-- A document node: either a text node or an element with a tag name and an
ordered child list (src/content/domScanner.ts operates on such trees). -/
inductive DomNode where
  | text (s : String)
  | elem (tag : String) (children : List DomNode)

mutual

/-- Decidable equality of document nodes. -/
def DomNode.decEq : (a b : DomNode) → Decidable (a = b)
  | .text s, .text t =>
    if h : s = t then .isTrue (by rw [h]) else .isFalse (by intro hh; cases hh; exact h rfl)
  | .text _, .elem _ _ => .isFalse (fun h => nomatch h)
  | .elem _ _, .text _ => .isFalse (fun h => nomatch h)
  | .elem t cs, .elem u ds =>
    if h : t = u then
      match DomNode.decEqList cs ds with
      | .isTrue h2 => .isTrue (by rw [h, h2])
      | .isFalse h2 => .isFalse (by intro hh; cases hh; exact h2 rfl)
    else .isFalse (by intro hh; cases hh; exact h rfl)

/-- Decidable equality of sibling lists. -/
def DomNode.decEqList : (as bs : List DomNode) → Decidable (as = bs)
  | [], [] => .isTrue rfl
  | [], _ :: _ => .isFalse (fun h => nomatch h)
  | _ :: _, [] => .isFalse (fun h => nomatch h)
  | a :: as, b :: bs =>
    match DomNode.decEq a b with
    | .isTrue h1 =>
      match DomNode.decEqList as bs with
      | .isTrue h2 => .isTrue (by rw [h1, h2])
      | .isFalse h2 => .isFalse (by intro hh; cases hh; exact h2 rfl)
    | .isFalse h1 => .isFalse (by intro hh; cases hh; exact h1 rfl)

end

instance : DecidableEq DomNode := DomNode.decEq

mutual

/-- `el.textContent`: concatenation of all descendant text, in document order. -/
def textContent : DomNode → String
  | .text s => s
  | .elem _ cs => textContentList cs

/-- Text content of a forest of siblings. -/
def textContentList : List DomNode → String
  | [] => ""
  | n :: rest => textContent n ++ textContentList rest

end

/-- Element children only (`el.children` skips text nodes). -/
def childElements : DomNode → List DomNode
  | .text _ => []
  | .elem _ cs => cs.filter (fun n => match n with | .text _ => false | .elem _ _ => true)

/-- Tag name of a node (text nodes have none). -/
def tagName : DomNode → String
  | .text _ => ""
  | .elem t _ => t

/-- The `blockTags` set of `isScorable` (src/content/domScanner.ts). -/
def blockTags : List String :=
  ["DIV", "SECTION", "ARTICLE", "ASIDE", "MAIN",
   "LI", "UL", "OL", "TABLE", "TR", "TD", "TH", "DETAILS", "SUMMARY"]

/-- Trimmed text length of a node, as used throughout `isScorable`. -/
def trimmedTextLength (n : DomNode) : ℕ :=
  (jsTrim (textContent n)).length

/-- `isScorable` from src/content/domScanner.ts: total trimmed text must reach
`minTextLength`; no direct child may hold at least 70% of the total text
(`childLen >= totalText.length * 0.7`, stated over ℚ as `10·childLen ≥ 7·total`);
and no block-level direct child may carry more than 100 characters. -/
def isScorable (minTextLength : ℕ) (el : DomNode) : Bool :=
  let totalLen := trimmedTextLength el
  if totalLen < minTextLength then false
  else (childElements el).all (fun child =>
    let childLen := trimmedTextLength child
    !(decide (7 * totalLen ≤ 10 * childLen)) &&
    !(blockTags.contains (tagName child) && decide (100 < childLen)))

/-- A live element handed to the scanner: a numeric identity plus its subtree.
Model-level equality stands for JS reference identity. -/
structure ScanElem where
  eid : ℕ
  node : DomNode
deriving DecidableEq

/-- A `TextBlock` of src/shared/types.ts: content key, normalised text, and the
identity of the originating element. -/
structure TextBlock where
  hash : String
  text : String
  elemId : ℕ
deriving DecidableEq

/-- `TARGETED_MIN_LENGTH = 25` from src/content/domScanner.ts. -/
def TARGETED_MIN_LENGTH : ℕ := 25

/-- Normalised text of an element (`normalizeText(el.textContent ?? '')`). -/
def elNormalized (el : ScanElem) : String :=
  normalizeText (textContent el.node)

/-- Content key of an element: the hash both passes of `scanDOM` compute for it. -/
def elHash (el : ScanElem) : String :=
  hashText (elNormalized el)

/-- The mutable state of one `scanDOM` call: collected blocks, the set of seen
content keys, and the set of elements pass 1 has claimed. -/
structure ScanState where
  results : List TextBlock
  seenHashes : List String
  seenElements : List ScanElem

/-- Loop body of pass 1 of `scanDOM` (targeted selectors, trusted): normalise,
apply the lower targeted length floor, and keep the block only when its content
key is new, recording the element as seen. -/
def pass1Step (st : ScanState) (el : ScanElem) : ScanState :=
  let normalized := elNormalized el
  if TARGETED_MIN_LENGTH ≤ normalized.length then
    let h := hashText normalized
    if st.seenHashes.contains h then st
    else ⟨st.results ++ [⟨h, normalized, el.eid⟩], h :: st.seenHashes, el :: st.seenElements⟩
  else st

/-- Loop body of pass 2 of `scanDOM` (generic tree walk): skip elements pass 1
already claimed, require `isScorable`, apply the generic length floor, and keep
the block only when its content key is new. -/
def pass2Step (minTextLength : ℕ) (st : ScanState) (el : ScanElem) : ScanState :=
  if !st.seenElements.contains el && isScorable minTextLength el.node then
    let normalized := elNormalized el
    if minTextLength ≤ normalized.length then
      let h := hashText normalized
      if st.seenHashes.contains h then st
      else ⟨st.results ++ [⟨h, normalized, el.eid⟩], h :: st.seenHashes, st.seenElements⟩
    else st
  else st

/-- `scanDOM` from src/content/domScanner.ts, over the element streams the two
DOM queries deliver: `pass1` is the `querySelectorAll(REPLY_SELECTORS)` result
(filtered by `isContentCandidate(·, trusted)`), `pass2` the tree-walker stream
(filtered by `isContentCandidate`); both are browser-API driven and enter the
model as inputs.  `pass1Only` is the SPA-host switch. -/
def scanDOM (minTextLength : ℕ) (pass1 pass2 : List ScanElem) (pass1Only : Bool) : List TextBlock :=
  let st1 := pass1.foldl pass1Step ⟨[], [], []⟩
  if pass1Only then st1.results
  else (pass2.foldl (pass2Step minTextLength) st1).results

/-- The block pass 1 would build for an element, before any deduplication
(floor check, normalisation and hashing only). -/
def pass1Candidate (el : ScanElem) : Option TextBlock :=
  let normalized := elNormalized el
  if TARGETED_MIN_LENGTH ≤ normalized.length then
    some ⟨hashText normalized, normalized, el.eid⟩
  else none

/-- The block pass 2 would build for an element, before any deduplication
(scorability and floor checks, normalisation and hashing only). -/
def pass2Candidate (minTextLength : ℕ) (el : ScanElem) : Option TextBlock :=
  if isScorable minTextLength el.node && decide (minTextLength ≤ (elNormalized el).length) then
    some ⟨hashText (elNormalized el), elNormalized el, el.eid⟩
  else none

/-- The raw candidate-block stream of one scan, both passes concatenated. -/
def scanCandidates (minTextLength : ℕ) (pass1 pass2 : List ScanElem) (pass1Only : Bool) :
    List TextBlock :=
  pass1.filterMap pass1Candidate ++
    (if pass1Only then [] else pass2.filterMap (pass2Candidate minTextLength))

/-- Specification-side deduplication, following the spec's words: keep the
first-seen block of each content key, dropping later duplicates; `seen` is the
set of keys already represented. -/
def dedupByHash : List TextBlock → List String → List TextBlock
  | [], _ => []
  | b :: rest, seen =>
    if seen.contains b.hash then dedupByHash rest seen
    else b :: dedupByHash rest (b.hash :: seen)

/-- The seen-key set after feeding a block stream through `dedupByHash`. -/
def dedupSeen : List TextBlock → List String → List String
  | [], seen => seen
  | b :: rest, seen =>
    if seen.contains b.hash then dedupSeen rest seen
    else dedupSeen rest (b.hash :: seen)

/-- A 90-character leaf: a `SPAN` holding ninety letters. -/
def domChildExample : DomNode :=
  .elem "SPAN" [.text (String.mk (List.replicate 90 'a'))]

/-- A wrapper `DIV` whose single element child holds 90% of its 100 characters. -/
def domParentExample : DomNode :=
  .elem "DIV" [domChildExample, .text (String.mk (List.replicate 10 'b'))]

/-- `jsMin` is the lattice `min` on ℚ. -/
theorem jsMin_eq_min (a b : ℚ) : jsMin a b = min a b := by
  rw [jsMin, min_def]

/-- `jsMax` is the lattice `max` on ℚ. -/
theorem jsMax_eq_max (a b : ℚ) : jsMax a b = max a b := by
  rw [jsMax, max_def]

/-- Rounding is monotone. -/
theorem jsRound_mono {q q' : ℚ} (h : q ≤ q') : jsRound q ≤ jsRound q' :=
  Int.floor_le_floor (by linarith)

/-- The short-text bucket map is monotone. -/
theorem shortBucket_mono {s s' : ℚ} (h : s ≤ s') : shortBucket s ≤ shortBucket s' := by
  unfold shortBucket
  split_ifs <;> linarith

/-- The short-text bucket map only takes the values 1, 4, 6, 8. -/
theorem shortBucket_values (s : ℚ) :
    shortBucket s = 1 ∨ shortBucket s = 4 ∨ shortBucket s = 6 ∨ shortBucket s = 8 := by
  unfold shortBucket
  split_ifs <;> simp

/-- The full weighted branch always lands in [1, 10], whatever the features. -/
theorem scoreFull_range (f : HeuristicFeatures) (e : ℚ) :
    1 ≤ scoreFull f e ∧ scoreFull f e ≤ 10 :=
  ⟨le_max_left _ _, max_le (by norm_num) (min_le_left _ _)⟩

/-- C1: `scoreText` is total and always returns an integer in [1, 10]: the
full branch clamps the weighted sum, maps it through `1 + sum·9`, rounds and
clamps to [1, 10], and the short branches only ever return 1, 4, 6 or 8. -/
theorem scoreText_total_range :
    (∀ (f : HeuristicFeatures) (t : String), 1 ≤ scoreText f t ∧ scoreText f t ≤ 10) ∧
    (∀ (f : HeuristicFeatures) (e : ℚ), 1 ≤ scoreFull f e ∧ scoreFull f e ≤ 10) ∧
    (∀ s : ℚ, shortBucket s = 1 ∨ shortBucket s = 4 ∨ shortBucket s = 6 ∨ shortBucket s = 8) := by
  refine ⟨fun f t => ?_, scoreFull_range, shortBucket_values⟩
  simp only [scoreText]
  split_ifs
  · norm_num
  · rcases shortBucket_values (jsMax f.phrasePatternsScore (computeEmDashSignal (jsTrim t))) with
      h | h | h | h <;> rw [h] <;> norm_num
  · exact scoreFull_range f _

/-- C2: the content key and the scorer are deterministic pure functions:
repeated evaluations of `hashText (normalizeText T)` agree, and two `scoreText`
calls on identical text (with the identical extracted features) agree. -/
theorem hashing_and_scoring_deterministic :
    (∀ T : String, hashText (normalizeText T) = hashText (normalizeText T)) ∧
    (∀ (f : HeuristicFeatures) (t₁ t₂ : String), t₁ = t₂ → scoreText f t₁ = scoreText f t₂) :=
  ⟨fun _ => rfl, fun _ _ _ h => by rw [h]⟩

/-- Witness for C2: two calls on the identical string return the identical value. -/
theorem hashing_and_scoring_deterministic_witness :
    ("abc" : String) = "abc" ∧
      scoreText neutralFeatures "abc" = scoreText neutralFeatures "abc" :=
  ⟨rfl, hashing_and_scoring_deterministic.2 neutralFeatures "abc" "abc" rfl⟩

/-- C3: the two short rules of `scoreText`: trimmed text below the floor of 12
characters scores 1 immediately (in particular `"thx"` scores 1), and trimmed
length in [12, 30) buckets `max(phrasePatternsScore, emDashSignal)` through
`≥0.65→8, ≥0.45→6, ≥0.25→4`, else 1, where the em-dash signal is the em-dash
count divided by 3 clamped to 1. -/
theorem scoreText_short_text_rules :
    (∀ (f : HeuristicFeatures) (t : String), (jsTrim t).length < 12 → scoreText f t = 1) ∧
    (∀ f : HeuristicFeatures, scoreText f "thx" = 1) ∧
    (∀ (f : HeuristicFeatures) (t : String), 12 ≤ (jsTrim t).length → (jsTrim t).length < 30 →
      scoreText f t = shortBucket (jsMax f.phrasePatternsScore (computeEmDashSignal (jsTrim t)))) ∧
    (∀ t : String, computeEmDashSignal t = jsMin 1 ((countEmDash t : ℚ) / 3)) := by
  have floor1 : ∀ (f : HeuristicFeatures) (t : String), (jsTrim t).length < 12 → scoreText f t = 1 := by
    intro f t h
    unfold scoreText
    rw [if_pos h]
  refine ⟨floor1, fun f => floor1 f "thx" (by decide), fun f t h1 h2 => ?_, fun t => ?_⟩
  · unfold scoreText
    rw [if_neg (by omega), if_pos h2]
  · by_cases h : countEmDash t = 0
    · simp only [computeEmDashSignal, h, if_pos rfl, Nat.cast_zero, jsMin]
      norm_num
    · simp only [computeEmDashSignal, if_neg h]

/-- Witness for C3: `"thx"` falls under the minimal floor and scores 1, and a
15-character text is routed through the short-text bucket rule. -/
theorem scoreText_short_text_rules_witness :
    ((jsTrim "thx").length < 12 ∧ scoreText neutralFeatures "thx" = 1) ∧
    (12 ≤ (jsTrim "aaaaaaaaaaaaaaa").length ∧ (jsTrim "aaaaaaaaaaaaaaa").length < 30 ∧
      scoreText neutralFeatures "aaaaaaaaaaaaaaa" =
        shortBucket (jsMax neutralFeatures.phrasePatternsScore
          (computeEmDashSignal (jsTrim "aaaaaaaaaaaaaaa")))) :=
  ⟨⟨by decide, scoreText_short_text_rules.1 neutralFeatures "thx" (by decide)⟩,
   ⟨by decide, by decide,
    scoreText_short_text_rules.2.2.1 neutralFeatures "aaaaaaaaaaaaaaa" (by decide) (by decide)⟩⟩

/-- C4 counterexample: the scenario text has trimmed length 54, which is not
below the short-text threshold of 30, so `scoreText` does not take the
short-text branch on it. -/
theorem c4_scenario_not_short_branch :
    (jsTrim c4ScenarioText).length = 54 ∧ ¬ takesShortBranch c4ScenarioText := by
  constructor
  · decide
  · intro h
    exact absurd h.2 (by decide)

/-- C4 (amended): the scenario text `"Great point! Thanks for sharing this — I
totally agree"` has trimmed length 54, at or above the short-text threshold of
30, so `scoreText` evaluates it through the full weighted branch, with its
em-dash signal equal to 1/3 (one em dash out of three). -/
theorem c4_scenario_full_branch :
    (jsTrim c4ScenarioText).length = 54 ∧
    computeEmDashSignal (jsTrim c4ScenarioText) = 1 / 3 ∧
    (∀ f : HeuristicFeatures, scoreText f c4ScenarioText = scoreFull f (1 / 3)) := by
  have hlen : (jsTrim c4ScenarioText).length = 54 := by decide
  have hcount : countEmDash (jsTrim c4ScenarioText) = 1 := by decide
  have hem : computeEmDashSignal (jsTrim c4ScenarioText) = 1 / 3 := by
    simp only [computeEmDashSignal, hcount, jsMin]
    norm_num
  refine ⟨hlen, hem, fun f => ?_⟩
  simp only [scoreText]
  rw [hlen, hem]
  norm_num

/-- Summing per-pattern capped counts is monotone in the counts. -/
theorem cappedSum_mono {xs ys : List ℕ} (h : List.Forall₂ (· ≤ ·) xs ys) :
    (xs.map countMatchesCapped).sum ≤ (ys.map countMatchesCapped).sum := by
  induction h with
  | nil => exact le_refl 0
  | cons h₁ _ ih =>
    simp only [List.map_cons, List.sum_cons]
    exact Nat.add_le_add (min_le_min (le_refl 2) h₁) ih

/-- The phrase-pattern density is monotone in the per-pattern match counts. -/
theorem computePhrasePatternsScore_mono {b b' hs hs' : List ℕ}
    (hb : List.Forall₂ (· ≤ ·) b b') (hh : List.Forall₂ (· ≤ ·) hs hs') :
    computePhrasePatternsScore b hs ≤ computePhrasePatternsScore b' hs' := by
  unfold computePhrasePatternsScore
  rw [jsMin_eq_min, jsMin_eq_min]
  refine min_le_min (le_refl 1) ?_
  gcongr
  · exact_mod_cast cappedSum_mono hb
  · exact_mod_cast cappedSum_mono hh

/-- The clamp–map–round–clamp tail of the full branch is monotone in the raw sum. -/
theorem clampRound_mono {x y : ℚ} (h : x ≤ y) :
    max 1 (min 10 (jsRound (1 + jsMin 1 x * 9))) ≤ max 1 (min 10 (jsRound (1 + jsMin 1 y * 9))) := by
  refine max_le_max (le_refl 1) (min_le_min (le_refl 10) (jsRound_mono ?_))
  have hm : jsMin 1 x ≤ jsMin 1 y := by
    rw [jsMin_eq_min, jsMin_eq_min]
    exact min_le_min (le_refl 1) h
  nlinarith

/-- The full branch is monotone in the phrase-pattern density, all other
features and the em-dash signal held fixed. -/
theorem scoreFull_mono_phrase (f : HeuristicFeatures) (e : ℚ) {p p' : ℚ} (h : p ≤ p') :
    scoreFull { f with phrasePatternsScore := p } e ≤
      scoreFull { f with phrasePatternsScore := p' } e := by
  have hboost : (if (0.6 : ℚ) ≤ p then (0.12 : ℚ) else if 0.4 ≤ p then 0.06 else 0) ≤
      (if (0.6 : ℚ) ≤ p' then (0.12 : ℚ) else if 0.4 ≤ p' then 0.06 else 0) := by
    split_ifs <;> linarith
  simp only [scoreFull]
  exact clampRound_mono (by linarith)

/-- `scoreText` is monotone in the phrase-pattern density, the text and every
other feature held fixed. -/
theorem scoreText_mono_phrase (f : HeuristicFeatures) (t : String) {p p' : ℚ} (h : p ≤ p') :
    scoreText { f with phrasePatternsScore := p } t ≤
      scoreText { f with phrasePatternsScore := p' } t := by
  simp only [scoreText]
  split_ifs
  · exact le_refl 1
  · refine shortBucket_mono ?_
    rw [jsMax_eq_max, jsMax_eq_max]
    exact max_le_max h (le_refl _)
  · exact scoreFull_mono_phrase f _ h

/-- C10: the phrase signal is monotone end to end: the density computed from
the per-pattern-capped match counts is non-decreasing in the library match
counts, and `scoreText` is non-decreasing in that density with every other
feature and the text held fixed. -/
theorem phrase_signal_monotone :
    (∀ b b' hs hs' : List ℕ, List.Forall₂ (· ≤ ·) b b' → List.Forall₂ (· ≤ ·) hs hs' →
      computePhrasePatternsScore b hs ≤ computePhrasePatternsScore b' hs') ∧
    (∀ (f : HeuristicFeatures) (t : String) (p p' : ℚ), p ≤ p' →
      scoreText { f with phrasePatternsScore := p } t ≤
        scoreText { f with phrasePatternsScore := p' } t) :=
  ⟨fun _ _ _ _ hb hh => computePhrasePatternsScore_mono hb hh,
   fun f t _ _ h => scoreText_mono_phrase f t h⟩

/-- Witness for C10: one extra library match and a density increase from 0 to 1
do not decrease the respective outputs. -/
theorem phrase_signal_monotone_witness :
    (List.Forall₂ (· ≤ ·) [0] [1] ∧ List.Forall₂ (· ≤ ·) ([] : List ℕ) [] ∧
      computePhrasePatternsScore [0] [] ≤ computePhrasePatternsScore [1] []) ∧
    ((0 : ℚ) ≤ 1 ∧
      scoreText { neutralFeatures with phrasePatternsScore := 0 } "abc" ≤
        scoreText { neutralFeatures with phrasePatternsScore := 1 } "abc") :=
  ⟨⟨List.Forall₂.cons (by norm_num) List.Forall₂.nil, List.Forall₂.nil,
    phrase_signal_monotone.1 [0] [1] [] []
      (List.Forall₂.cons (by norm_num) List.Forall₂.nil) List.Forall₂.nil⟩,
   ⟨by norm_num,
    phrase_signal_monotone.2 neutralFeatures "abc" 0 1 (by norm_num)⟩⟩

/-- `Char.ofNat` of a valid scalar value has that value. -/
theorem char_toNat_ofNat {n : ℕ} (h : n.isValidChar) : (Char.ofNat n).toNat = n := by
  rw [Char.ofNat, dif_pos h]
  rfl

/-- The ASCII case map is the identity off the uppercase range. -/
theorem toLower_eq_self {c : Char} (h : ¬(65 ≤ c.toNat ∧ c.toNat ≤ 90)) :
    Char.toLower c = c := by
  simp only [Char.toLower, ge_iff_le]
  rw [if_neg h]

/-- Lowercasing an uppercase ASCII letter adds 32 to its scalar value. -/
theorem toLower_toNat_of_upper {c : Char} (h1 : 65 ≤ c.toNat) (h2 : c.toNat ≤ 90) :
    (Char.toLower c).toNat = c.toNat + 32 := by
  simp only [Char.toLower, ge_iff_le]
  rw [if_pos ⟨h1, h2⟩, char_toNat_ofNat (Or.inl (by omega))]

/-- The ASCII case map is idempotent. -/
theorem toLower_toLower (c : Char) : Char.toLower (Char.toLower c) = Char.toLower c := by
  by_cases h : 65 ≤ c.toNat ∧ c.toNat ≤ 90
  · apply toLower_eq_self
    rw [toLower_toNat_of_upper h.1 h.2]
    omega
  · rw [toLower_eq_self h]
    exact toLower_eq_self h

/-- Characters below the zero-width block are not zero-width. -/
theorem isZeroWidthChar_eq_false {c : Char} (h : c.toNat < 0x200B) :
    isZeroWidthChar c = false := by
  unfold isZeroWidthChar
  simp only [Bool.or_eq_false_iff, Bool.and_eq_false_iff, decide_eq_false_iff_not, not_le]
  omega

/-- Every character of a collapsed list is either the inserted space or a
non-whitespace character of the input. -/
theorem mem_collapseWsAux : ∀ {b : Bool} {l : List Char} {x : Char}, x ∈ collapseWsAux b l →
    x = ' ' ∨ (x ∈ l ∧ isJsWhitespace x = false) := by
  intro b l
  induction l generalizing b with
  | nil => intro x hx; simp [collapseWsAux] at hx
  | cons c rest ih =>
    intro x hx
    simp only [collapseWsAux] at hx
    by_cases hc : isJsWhitespace c
    · rw [if_pos hc] at hx
      by_cases hb : b
      · rw [if_pos hb] at hx
        rcases ih hx with h | ⟨hm, hw⟩
        · exact Or.inl h
        · exact Or.inr ⟨List.mem_cons_of_mem c hm, hw⟩
      · rw [if_neg hb] at hx
        rcases List.mem_cons.mp hx with h | h
        · exact Or.inl h
        · rcases ih h with h' | ⟨hm, hw⟩
          · exact Or.inl h'
          · exact Or.inr ⟨List.mem_cons_of_mem c hm, hw⟩
    · rw [if_neg hc] at hx
      rcases List.mem_cons.mp hx with h | h
      · subst h; exact Or.inr ⟨List.mem_cons_self x rest, by simpa using hc⟩
      · rcases ih h with h' | ⟨hm, hw⟩
        · exact Or.inl h'
        · exact Or.inr ⟨List.mem_cons_of_mem c hm, hw⟩

/-- A collapsed list never carries two adjacent whitespace characters, and when
the run flag is set its first character is not whitespace. -/
theorem collapse_chain : ∀ (l : List Char) (b : Bool),
    List.Chain' (fun a c => ¬(isJsWhitespace a = true ∧ isJsWhitespace c = true)) (collapseWsAux b l) ∧
    (b = true → ∀ x ∈ (collapseWsAux b l).head?, isJsWhitespace x = false) := by
  intro l
  induction l with
  | nil => intro b; exact ⟨List.chain'_nil, fun _ x hx => by simp [collapseWsAux] at hx⟩
  | cons c rest ih =>
    intro b
    by_cases hc : isJsWhitespace c
    · by_cases hb : b
      · simpa [collapseWsAux, hc, hb] using ih true
      · have hrest := ih true
        have hchain : List.Chain'
            (fun a c => ¬(isJsWhitespace a = true ∧ isJsWhitespace c = true))
            (' ' :: collapseWsAux true rest) := by
          rw [List.chain'_cons']
          refine ⟨fun y hy => ?_, hrest.1⟩
          have := hrest.2 rfl y hy
          simp [this]
        constructor
        · simpa [collapseWsAux, hc, hb] using hchain
        · intro hb'; exact absurd hb' (by simpa using hb)
    · have hrest := ih false
      have hchain : List.Chain'
          (fun a c => ¬(isJsWhitespace a = true ∧ isJsWhitespace c = true))
          (c :: collapseWsAux false rest) := by
        rw [List.chain'_cons']
        exact ⟨fun y _ => by simp [hc], hrest.1⟩
      constructor
      · simpa [collapseWsAux, hc] using hchain
      · intro _ x hx
        simp only [collapseWsAux, if_neg hc, List.head?_cons, Option.mem_def,
          Option.some.injEq] at hx
        subst hx
        simpa using hc

/-- Collapsing is the identity on a list whose whitespace is single spaces with
no two adjacent, provided the run flag matches the head. -/
theorem collapse_eq_self : ∀ (l : List Char),
    (∀ x ∈ l, isJsWhitespace x = true → x = ' ') →
    List.Chain' (fun a c => ¬(isJsWhitespace a = true ∧ isJsWhitespace c = true)) l →
    ∀ b : Bool, (b = true → ∀ x ∈ l.head?, isJsWhitespace x = false) →
    collapseWsAux b l = l := by
  intro l
  induction l with
  | nil => intro _ _ b _; rfl
  | cons c rest ih =>
    intro hall hchain b hb
    by_cases hc : isJsWhitespace c
    · have hb' : b = false := by
        cases b
        · rfl
        · exact absurd (hb rfl c (by simp)) (by simpa using hc)
      have hcsp : c = ' ' := hall c (List.mem_cons_self c rest) hc
      subst hcsp
      have hhead : ∀ x ∈ rest.head?, isJsWhitespace x = false := by
        intro y hy
        have := (List.chain'_cons'.mp hchain).1 y hy
        by_contra hyw
        exact this ⟨hc, by simpa using hyw⟩
      have hrest : collapseWsAux true rest = rest :=
        ih (fun x hx => hall x (List.mem_cons_of_mem _ hx))
          (List.chain'_cons'.mp hchain).2 true (fun _ => hhead)
      simp [collapseWsAux, hc, hb', hrest]
    · have hrest : collapseWsAux false rest = rest :=
        ih (fun x hx => hall x (List.mem_cons_of_mem c hx))
          (List.chain'_cons'.mp hchain).2 false (by simp)
      simp [collapseWsAux, hc, hrest]

/-- Dropping a matching run twice is the same as dropping it once. -/
theorem dropWhile_idem {α : Type} (p : α → Bool) (l : List α) :
    (l.dropWhile p).dropWhile p = l.dropWhile p := by
  induction l with
  | nil => rfl
  | cons c rest ih =>
    by_cases h : p c <;> simp [List.dropWhile_cons, h, ih]

/-- The head of a non-trivial `dropWhile` result fails the predicate. -/
theorem dropWhile_eq_cons_head_false {α : Type} (p : α → Bool) (l : List α) {x : α}
    {xs : List α} (h : l.dropWhile p = x :: xs) : p x = false := by
  induction l with
  | nil => simp at h
  | cons c rest ih =>
    rw [List.dropWhile_cons] at h
    by_cases hc : p c
    · rw [if_pos hc] at h; exact ih h
    · rw [if_neg hc] at h
      injection h with h1 _
      subst h1
      simpa using hc

/-- Trimming yields a contiguous infix of the input. -/
theorem trimChars_infix_self (l : List Char) : trimChars l <:+: l := by
  unfold trimChars
  have h2 : ((l.dropWhile isJsWhitespace).reverse.dropWhile isJsWhitespace).reverse <+:
      l.dropWhile isJsWhitespace := by
    rw [← List.reverse_suffix, List.reverse_reverse]
    exact List.dropWhile_suffix _
  exact List.IsInfix.trans ( List.IsPrefix.isInfix h2)
    ( List.IsSuffix.isInfix ( List.dropWhile_suffix _))

/-- Trimming yields a sublist of the input. -/
theorem trimChars_sublist (l : List Char) : (trimChars l).Sublist l :=
  List.IsInfix.sublist (trimChars_infix_self l)

/-- A trimmed list has no leading whitespace. -/
theorem trimChars_dropWhile (m : List Char) :
    (trimChars m).dropWhile isJsWhitespace = trimChars m := by
  rcases hx : trimChars m with _ | ⟨x, xs⟩
  · rfl
  · have hB : List.dropWhile isJsWhitespace (List.dropWhile isJsWhitespace m).reverse =
        xs.reverse ++ [x] := by
      have := congrArg List.reverse hx
      simpa [trimChars] using this
    obtain ⟨t, ht⟩ :=
      List.dropWhile_suffix (l := (List.dropWhile isJsWhitespace m).reverse) isJsWhitespace
    rw [hB] at ht
    have hA2 : List.dropWhile isJsWhitespace m = x :: (xs ++ t.reverse) := by
      have := congrArg List.reverse ht
      simpa using this.symm
    have hpx := dropWhile_eq_cons_head_false isJsWhitespace m hA2
    rw [List.dropWhile_cons, if_neg (by simp [hpx])]

/-- A trimmed list has no trailing whitespace. -/
theorem trimChars_reverse_dropWhile (m : List Char) :
    (trimChars m).reverse.dropWhile isJsWhitespace = (trimChars m).reverse := by
  unfold trimChars
  rw [List.reverse_reverse]
  exact dropWhile_idem _ _

/-- Trimming is idempotent. -/
theorem trimChars_idem (l : List Char) : trimChars (trimChars l) = trimChars l := by
  calc trimChars (trimChars l)
      = (((trimChars l).dropWhile isJsWhitespace).reverse.dropWhile isJsWhitespace).reverse :=
        rfl
    _ = ((trimChars l).reverse.dropWhile isJsWhitespace).reverse := by
        rw [trimChars_dropWhile]
    _ = ((trimChars l).reverse).reverse := by rw [trimChars_reverse_dropWhile]
    _ = trimChars l := List.reverse_reverse _

/-- C5 counterexample: `normalizeText` is not idempotent.  On `"a ​ b"` (with a
zero-width space between the two spaces) the whitespace on either side of the
zero-width character collapses to two separate spaces, the zero-width strip
then makes them adjacent, and only a second pass merges them: the first pass
yields `"a  b"`, the second `"a b"`. -/
theorem normalizeText_not_idempotent :
    normalizeText (normalizeText "a ​ b") ≠ normalizeText "a ​ b" := by
  decide

/-- Idempotence of the character-level normalisation pipeline on inputs free of
the zero-width characters U+200B–U+200D. -/
theorem normalizeChars_idempotent (l : List Char)
    (hl : ∀ c ∈ l, ¬(0x200B ≤ c.toNat ∧ c.toNat ≤ 0x200D)) :
    normalizeChars (normalizeChars l) = normalizeChars l := by
  have hZWs : ∀ x ∈ collapseWs (l.map Char.toLower), isZeroWidthChar x = false := by
    intro x hx
    rcases mem_collapseWsAux hx with hsp | ⟨hxm, hxw⟩
    · subst hsp; decide
    · obtain ⟨c, hcl, rfl⟩ := List.mem_map.mp hxm
      by_cases hup : 65 ≤ c.toNat ∧ c.toNat ≤ 90
      · exact isZeroWidthChar_eq_false (by rw [toLower_toNat_of_upper hup.1 hup.2]; omega)
      · rw [toLower_eq_self hup] at hxw ⊢
        have hnr := hl c hcl
        have hfeff : c.toNat ≠ 0xFEFF := by
          intro hf
          have hwsc : isJsWhitespace c = true := by
            unfold isJsWhitespace
            simp [hf]
          simp [hwsc] at hxw
        unfold isZeroWidthChar
        simp only [Bool.or_eq_false_iff, Bool.and_eq_false_iff, decide_eq_false_iff_not, not_le]
        exact ⟨by omega, hfeff⟩
  have hstrip : stripZeroWidth (collapseWs (l.map Char.toLower)) =
      collapseWs (l.map Char.toLower) := by
    unfold stripZeroWidth
    refine List.filter_eq_self.mpr fun x hx => ?_
    simp [hZWs x hx]
  have hn : normalizeChars l = trimChars (collapseWs (l.map Char.toLower)) := by
    unfold normalizeChars
    rw [hstrip]
  have hsubn : ∀ x ∈ normalizeChars l, x ∈ collapseWs (l.map Char.toLower) := by
    intro x hx
    rw [hn] at hx
    exact List.Sublist.subset (trimChars_sublist _) hx
  have h1 : (normalizeChars l).map Char.toLower = normalizeChars l := by
    have hfix : ∀ x ∈ normalizeChars l, Char.toLower x = id x := by
      intro x hx
      rcases mem_collapseWsAux (hsubn x hx) with hsp | ⟨hxm, _⟩
      · subst hsp; decide
      · obtain ⟨c, _, rfl⟩ := List.mem_map.mp hxm
        exact toLower_toLower c
    rw [List.map_congr_left hfix, List.map_id]
  have hchain : List.Chain'
      (fun a c => ¬(isJsWhitespace a = true ∧ isJsWhitespace c = true)) (normalizeChars l) := by
    rw [hn]
    exact List.Chain'.infix (collapse_chain (l.map Char.toLower) false).1 (trimChars_infix_self _)
  have hws : ∀ x ∈ normalizeChars l, isJsWhitespace x = true → x = ' ' := by
    intro x hx hxw
    rcases mem_collapseWsAux (hsubn x hx) with hsp | ⟨_, hnw⟩
    · exact hsp
    · simp [hnw] at hxw
  have h3 : collapseWs (normalizeChars l) = normalizeChars l :=
    collapse_eq_self _ hws hchain false (by simp)
  have h4 : stripZeroWidth (normalizeChars l) = normalizeChars l := by
    unfold stripZeroWidth
    refine List.filter_eq_self.mpr fun x hx => ?_
    simp [hZWs x (hsubn x hx)]
  have h5 : trimChars (normalizeChars l) = normalizeChars l := by
    rw [hn, trimChars_idem]
  calc normalizeChars (normalizeChars l)
      = trimChars (stripZeroWidth (collapseWs ((normalizeChars l).map Char.toLower))) := rfl
    _ = trimChars (stripZeroWidth (collapseWs (normalizeChars l))) := by rw [h1]
    _ = trimChars (stripZeroWidth (normalizeChars l)) := by rw [h3]
    _ = trimChars (normalizeChars l) := by rw [h4]
    _ = normalizeChars l := h5

/-- C5 (amended): `normalizeText` is idempotent on every string containing no
zero-width characters U+200B–U+200D; on such characters sandwiched between
whitespace the single pass leaves a double space (see the counterexample), and
the stated lowercase/collapse/strip/trim pipeline stabilises only from the
second application on. -/
theorem normalizeText_idempotent_no_zero_width (T : String)
    (h : ∀ c ∈ T.data, ¬(0x200B ≤ c.toNat ∧ c.toNat ≤ 0x200D)) :
    normalizeText (normalizeText T) = normalizeText T :=
  congrArg String.mk (normalizeChars_idempotent T.data h)

/-- Witness for C5 (amended): a zero-width-free string with case, runs of
blanks and padding normalises to a fixed point in one pass. -/
theorem normalizeText_idempotent_no_zero_width_witness :
    (∀ c ∈ ("  Great   POINT  " : String).data, ¬(0x200B ≤ c.toNat ∧ c.toNat ≤ 0x200D)) ∧
      normalizeText (normalizeText "  Great   POINT  ") = normalizeText "  Great   POINT  " :=
  ⟨by decide, normalizeText_idempotent_no_zero_width "  Great   POINT  " (by decide)⟩

/-- Looking up a key right after writing it finds the written value. -/
theorem assocFind_assocSet {α : Type} (k : String) (v : α) :
    ∀ st : List (String × α), assocFind k (assocSet k v st) = some v := by
  intro st
  induction st with
  | nil => simp [assocSet, assocFind]
  | cons p rest ih =>
    by_cases h : p.1 = k
    · simp [assocSet, h, assocFind]
    · simpa [assocSet, h, assocFind] using ih

/-- Writing an absent key appends it at the end. -/
theorem assocSet_of_not_contains {α : Type} (k : String) (v : α) :
    ∀ st : List (String × α), containsKey st k = false → assocSet k v st = st ++ [(k, v)] := by
  intro st
  induction st with
  | nil => intro _; rfl
  | cons p rest ih =>
    intro h
    simp only [containsKey, List.any_cons, Bool.or_eq_false_iff] at h
    have h1 : ¬ p.1 = k := by simpa using h.1
    have h2 : containsKey rest k = false := h.2
    simp [assocSet, h1, ih h2]

/-- Writing a present key keeps the length. -/
theorem assocSet_length_of_contains {α : Type} (k : String) (v : α) :
    ∀ st : List (String × α), containsKey st k = true → (assocSet k v st).length = st.length := by
  intro st
  induction st with
  | nil => intro h; simp [containsKey] at h
  | cons p rest ih =>
    intro h
    by_cases h1 : p.1 = k
    · simp [assocSet, h1]
    · simp only [containsKey, List.any_cons, Bool.or_eq_true] at h
      rcases h with h | h
    <;> first
      | exact absurd (by simpa using h) h1
      | simp [assocSet, h1, ih h]

/-- Lookup skips a block that does not carry the key. -/
theorem assocFind_append_of_not_contains {α : Type} (k : String) :
    ∀ (l₁ l₂ : List (String × α)), containsKey l₁ k = false →
      assocFind k (l₁ ++ l₂) = assocFind k l₂ := by
  intro l₁ l₂
  induction l₁ with
  | nil => intro _; rfl
  | cons p rest ih =>
    intro h
    simp only [containsKey, List.any_cons, Bool.or_eq_false_iff] at h
    have h1 : ¬ p.1 = k := by simpa using h.1
    simp [assocFind, h1, ih h.2]

/-- A key absent from a list is absent from its tail. -/
theorem containsKey_drop_one {α : Type} (k : String) :
    ∀ st : List (String × α), containsKey st k = false → containsKey (st.drop 1) k = false := by
  intro st h
  cases st with
  | nil => rfl
  | cons p rest =>
    simp only [containsKey, List.any_cons, Bool.or_eq_false_iff] at h
    simpa [containsKey] using h.2

/-- Inserting into a numerically sorted list adds one entry. -/
theorem length_insertOrderedByValue (p : String × ℤ) :
    ∀ st : DurableState, (insertOrderedByValue p st).length = st.length + 1 := by
  intro st
  induction st with
  | nil => rfl
  | cons q rest ih =>
    by_cases h : decimalValue p.1 ≤ decimalValue q.1 <;>
      simp [insertOrderedByValue, h, ih]

/-- Sorting by numeric key value preserves the length. -/
theorem length_sortByNumericValue :
    ∀ st : DurableState, (sortByNumericValue st).length = st.length := by
  intro st
  induction st with
  | nil => rfl
  | cons p rest ih => simp [sortByNumericValue, length_insertOrderedByValue, ih]

/-- A filter and its complement partition the length. -/
theorem length_filter_partition {α : Type} (p : α → Bool) (l : List α) :
    (l.filter p).length + (l.filter (fun a => !p a)).length = l.length := by
  induction l with
  | nil => rfl
  | cons a rest ih =>
    by_cases h : p a <;> simp [List.filter_cons, h] <;> omega

/-- Enumeration order preserves the number of entries. -/
theorem length_objectKeysOrder (cache : DurableState) :
    (objectKeysOrder cache).length = cache.length := by
  rw [objectKeysOrder, List.length_append, length_sortByNumericValue]
  exact length_filter_partition _ cache

/-- When no key is an array-index string, the `Object.keys` enumeration order
is exactly the creation order. -/
theorem objectKeysOrder_of_no_index {st : DurableState}
    (h : ∀ p ∈ st, isArrayIndexKey p.1 = false) : objectKeysOrder st = st := by
  have h1 : st.filter (fun p => isArrayIndexKey p.1) = [] := by
    rw [List.filter_eq_nil_iff]
    intro p hp
    simp [h p hp]
  have h2 : st.filter (fun p => !isArrayIndexKey p.1) = st := by
    rw [List.filter_eq_self]
    intro p hp
    simp [h p hp]
  rw [objectKeysOrder, h1, h2]
  rfl

/-- Lookup of a foreign key in a replicated list misses. -/
theorem assocFind_replicate_ne {α : Type} (v : α) {k k' : String} (h : ¬ k' = k) :
    ∀ n : ℕ, assocFind k (List.replicate n (k', v)) = none := by
  intro n
  induction n with
  | zero => rfl
  | succ n ih => simp [List.replicate_succ, assocFind, h, ih]

/-- Filtering a replicated list by a failing predicate empties it. -/
theorem filter_replicate_of_false {α : Type} {p : α → Bool} {a : α} (h : p a = false) :
    ∀ n : ℕ, (List.replicate n a).filter p = [] := by
  intro n
  induction n with
  | zero => rfl
  | succ n ih => simp [List.replicate_succ, List.filter_cons, h, ih]

/-- Filtering a replicated list by a passing predicate keeps it whole. -/
theorem filter_replicate_of_true {α : Type} {p : α → Bool} {a : α} (h : p a = true) :
    ∀ n : ℕ, (List.replicate n a).filter p = List.replicate n a := by
  intro n
  induction n with
  | zero => rfl
  | succ n ih => simp [List.replicate_succ, List.filter_cons, h, ih]

/-- The last entry of a nonempty replicated list. -/
theorem getLast?_replicate_succ {α : Type} (a : α) :
    ∀ n : ℕ, (List.replicate (n + 1) a).getLast? = some a := by
  intro n
  induction n with
  | zero => rfl
  | succ n ih =>
    rw [List.replicate_succ, List.replicate_succ, List.getLast?_cons_cons,
      ← List.replicate_succ]
    exact ih

/-- C6: both cache tiers obey get-after-set and clear semantics: a session
entry written at `now` is returned by `getCached` until its TTL elapses and
reported absent afterwards; the session tier is empty after `clearMemCache`;
a durable entry written by `setCachedScore` is returned by `getCachedScore`
whenever the write does not itself overflow capacity — from any below-capacity
state unconditionally, and from any at-capacity state none of whose keys (nor
the new key) is an array-index string, in which case the overflow evicts the
oldest entry rather than the new one; and every lookup after `clearScoreCache`
is absent. -/
theorem cache_get_set_clear :
    (∀ (now now' : ℕ) (k : String) (s : ℤ) (st : SessionState), now' - now ≤ TTL_MS →
      (getCached now' k (setCache now k s st)).1 = some s) ∧
    (∀ (now now' : ℕ) (k : String) (s : ℤ) (st : SessionState), TTL_MS < now' - now →
      (getCached now' k (setCache now k s st)).1 = none) ∧
    (∀ (st : SessionState) (now : ℕ) (k : String),
      (getCached now k (clearMemCache st)).1 = none) ∧
    (∀ (k : String) (s : ℤ) (st : DurableState), st.length < MAX_CACHE_SIZE →
      getCachedScore k (setCachedScore k s st) = some s) ∧
    (∀ (k : String) (s : ℤ) (st : DurableState),
      (∀ p ∈ st, isArrayIndexKey p.1 = false) → isArrayIndexKey k = false →
      st.length ≤ MAX_CACHE_SIZE →
      getCachedScore k (setCachedScore k s st) = some s) ∧
    (∀ k : String, getCachedScore k clearScoreCache = none) := by
  have hfound : ∀ (now : ℕ) (k : String) (st : SessionState) (e : SessionEntry),
      assocFind k st = some e →
      (getCached now k st).1 = if TTL_MS < now - e.ts then none else some e.score := by
    intro now k st e hfind
    simp only [getCached, hfind]
    split_ifs <;> rfl
  have hfind : ∀ (now : ℕ) (k : String) (s : ℤ) (st : SessionState),
      assocFind k (setCache now k s st) = some ⟨s, now⟩ := by
    intro now k s st
    exact assocFind_assocSet k (SessionEntry.mk s now) _
  refine ⟨?_, ?_, ?_, ?_, ?_, fun _ => rfl⟩
  · intro now now' k s st h
    rw [hfound now' k _ _ (hfind now k s st)]
    exact if_neg (show ¬ TTL_MS < now' - now by omega)
  · intro now now' k s st h
    rw [hfound now' k _ _ (hfind now k s st)]
    exact if_pos (show TTL_MS < now' - now from h)
  · intro st now k
    rfl
  · intro k s st hlen
    have hle : (assocSet k s st).length ≤ MAX_CACHE_SIZE := by
      by_cases hc : containsKey st k
      · rw [assocSet_length_of_contains k s st hc]
        omega
      · have hb : containsKey st k = false := by simpa using hc
        rw [assocSet_of_not_contains k s st hb]
        simp only [List.length_append, List.length_cons, List.length_nil]
        omega
    rw [getCachedScore, setCachedScore, saveScoreCache,
      if_neg (by rw [length_objectKeysOrder]; omega)]
    exact assocFind_assocSet k s st
  · intro k s st hnoidx hkidx hlen
    by_cases hc : containsKey st k
    · have hlen2 : (assocSet k s st).length = st.length :=
        assocSet_length_of_contains k s st hc
      rw [getCachedScore, setCachedScore, saveScoreCache,
        if_neg (by rw [length_objectKeysOrder]; omega)]
      exact assocFind_assocSet k s st
    · have hb : containsKey st k = false := by simpa using hc
      have happ : assocSet k s st = st ++ [(k, s)] := assocSet_of_not_contains k s st hb
      have hnoidx2 : ∀ p ∈ st ++ [(k, s)], isArrayIndexKey p.1 = false := by
        intro p hp
        rcases List.mem_append.mp hp with hp | hp
        · exact hnoidx p hp
        · rw [List.mem_singleton] at hp
          subst hp
          exact hkidx
      rw [getCachedScore, setCachedScore, happ, saveScoreCache,
        objectKeysOrder_of_no_index hnoidx2]
      have hm : MAX_CACHE_SIZE = 2000 := rfl
      by_cases hfull : MAX_CACHE_SIZE < (st ++ [(k, s)]).length
      · rw [if_pos hfull]
        have h1 : st.length = MAX_CACHE_SIZE := by
          simp only [List.length_append, List.length_cons, List.length_nil] at hfull
          omega
        have hdrop : (st ++ [(k, s)]).length - MAX_CACHE_SIZE = 1 := by
          simp only [List.length_append, List.length_cons, List.length_nil]
          omega
        rw [hdrop, List.drop_append_of_le_length (by omega)]
        rw [assocFind_append_of_not_contains k _ _ (containsKey_drop_one k st hb)]
        simp [assocFind]
      · rw [if_neg hfull]
        rw [assocFind_append_of_not_contains k _ _ hb]
        simp [assocFind]

/-- Witness for C6: get-after-set within and past the TTL on the session tier,
and get-after-set on an empty durable tier through both durable conjuncts. -/
theorem cache_get_set_clear_witness :
    ((0 : ℕ) - 0 ≤ TTL_MS ∧ (getCached 0 "k" (setCache 0 "k" 5 [])).1 = some 5) ∧
    (TTL_MS < 1800001 - 0 ∧ (getCached 1800001 "k" (setCache 0 "k" 5 [])).1 = none) ∧
    (([] : DurableState).length < MAX_CACHE_SIZE ∧
      getCachedScore "k" (setCachedScore "k" 5 []) = some 5) ∧
    ((∀ p ∈ ([] : DurableState), isArrayIndexKey p.1 = false) ∧
      isArrayIndexKey "k" = false ∧ ([] : DurableState).length ≤ MAX_CACHE_SIZE ∧
      getCachedScore "k" (setCachedScore "k" 5 []) = some 5) :=
  ⟨⟨by decide, cache_get_set_clear.1 0 0 "k" 5 [] (by decide)⟩,
   ⟨by decide, cache_get_set_clear.2.1 0 1800001 "k" 5 [] (by decide)⟩,
   ⟨by decide, cache_get_set_clear.2.2.2.1 "k" 5 [] (by decide)⟩,
   ⟨by simp, by decide, by decide,
    cache_get_set_clear.2.2.2.2.1 "k" 5 [] (by simp) (by decide) (by decide)⟩⟩

/-- A replicated foreign key never contains a different key. -/
theorem containsKey_replicate {α : Type} (v : α) {k k' : String} (h : ¬ k' = k) :
    ∀ n : ℕ, containsKey (List.replicate n (k', v)) k = false := by
  intro n
  induction n with
  | zero => rfl
  | succ n ih =>
    simp only [List.replicate_succ, containsKey, List.any_cons, Bool.or_eq_false_iff]
    exact ⟨by simpa using h, ih⟩

/-- C7 counterexample: array-index keys break oldest-first eviction.  Into a
full cache of 2000 entries under the non-index key `"a"`, insert the fresh key
`"1"` — an array-index string, a shape the all-digit hex hashes take.
`Object.keys` enumerates `"1"` first, so the over-capacity save drops the
just-inserted entry rather than the oldest: the state is unchanged, the lookup
of the new key misses, and the result is not `st.drop 1 ++ [(k, s)]`. -/
theorem saveScoreCache_not_oldest_first :
    setCachedScore "1" 7 (List.replicate 2000 ("a", (0 : ℤ))) =
        List.replicate 2000 ("a", (0 : ℤ)) ∧
    getCachedScore "1" (setCachedScore "1" 7 (List.replicate 2000 ("a", (0 : ℤ)))) = none ∧
    ¬ (setCachedScore "1" 7 (List.replicate 2000 ("a", (0 : ℤ))) =
        (List.replicate 2000 ("a", (0 : ℤ))).drop 1 ++ [("1", 7)]) := by
  have hfresh : containsKey (List.replicate 2000 ("a", (0 : ℤ))) "1" = false :=
    containsKey_replicate (0 : ℤ) (by decide) 2000
  have happ : assocSet "1" (7 : ℤ) (List.replicate 2000 ("a", (0 : ℤ))) =
      List.replicate 2000 ("a", (0 : ℤ)) ++ [("1", 7)] :=
    assocSet_of_not_contains "1" 7 _ hfresh
  have hidx1 : isArrayIndexKey "1" = true := by decide
  have hkeys : objectKeysOrder (List.replicate 2000 ("a", (0 : ℤ)) ++ [("1", (7 : ℤ))]) =
      ("1", (7 : ℤ)) :: List.replicate 2000 ("a", (0 : ℤ)) := by
    rw [objectKeysOrder, List.filter_append, List.filter_append]
    rw [filter_replicate_of_false (p := fun p : String × ℤ => isArrayIndexKey p.1)
      (a := ("a", (0 : ℤ))) (by decide) 2000]
    rw [filter_replicate_of_true (p := fun p : String × ℤ => !isArrayIndexKey p.1)
      (a := ("a", (0 : ℤ))) (by decide) 2000]
    rw [show List.filter (fun p : String × ℤ => isArrayIndexKey p.1) [("1", (7 : ℤ))] =
      [("1", (7 : ℤ))] by decide]
    rw [show List.filter (fun p : String × ℤ => !isArrayIndexKey p.1) [("1", (7 : ℤ))] =
      [] by decide]
    rw [List.nil_append, List.append_nil]
    rfl
  have hlen : (("1", (7 : ℤ)) :: List.replicate 2000 ("a", (0 : ℤ))).length = 2001 := by
    rw [List.length_cons, List.length_replicate]
  have hsave : setCachedScore "1" 7 (List.replicate 2000 ("a", (0 : ℤ))) =
      List.replicate 2000 ("a", (0 : ℤ)) := by
    rw [setCachedScore, happ, saveScoreCache, hkeys, hlen]
    rw [if_pos (show MAX_CACHE_SIZE < 2001 by norm_num [MAX_CACHE_SIZE])]
    rw [show (2001 : ℕ) - MAX_CACHE_SIZE = 1 from rfl]
    rfl
  refine ⟨hsave, ?_, ?_⟩
  · rw [hsave]
    exact assocFind_replicate_ne (0 : ℤ) (by decide) 2000
  · rw [hsave]
    intro heq
    have hlast := congrArg List.getLast? heq
    rw [List.getLast?_concat] at hlast
    have hrep := getLast?_replicate_succ (("a", (0 : ℤ))) 1999
    norm_num at hrep
    rw [hrep] at hlast
    exact absurd hlast (by decide)

/-- C7 (amended): the durable score cache never persists more than its
capacity of 2000 entries: every save output has length at most
`MAX_CACHE_SIZE`, unconditionally.  Provided no cache key is an array-index
string — so that the `Object.keys` enumeration order coincides with insertion
order — an over-capacity save drops exactly the oldest-inserted entries, and
inserting a fresh non-index key into a full cache evicts exactly the one
oldest entry, leaving the size at 2000. -/
theorem durable_cache_capacity :
    (∀ st : DurableState, (saveScoreCache st).length ≤ MAX_CACHE_SIZE) ∧
    (∀ st : DurableState, (∀ p ∈ st, isArrayIndexKey p.1 = false) →
      MAX_CACHE_SIZE < st.length →
      saveScoreCache st = st.drop (st.length - MAX_CACHE_SIZE)) ∧
    (∀ (st : DurableState) (k : String) (s : ℤ),
      (∀ p ∈ st, isArrayIndexKey p.1 = false) → isArrayIndexKey k = false →
      st.length = MAX_CACHE_SIZE → containsKey st k = false →
      setCachedScore k s st = st.drop 1 ++ [(k, s)] ∧
        (setCachedScore k s st).length = MAX_CACHE_SIZE) := by
  refine ⟨fun st => ?_, fun st hnoidx h => ?_, fun st k s hnoidx hkidx hlen hfresh => ?_⟩
  · rw [saveScoreCache]
    split_ifs with h
    · rw [List.length_drop]
      omega
    · rw [length_objectKeysOrder] at h
      omega
  · rw [saveScoreCache, objectKeysOrder_of_no_index hnoidx, if_pos h]
  · have hm : MAX_CACHE_SIZE = 2000 := rfl
    have happ : assocSet k s st = st ++ [(k, s)] := assocSet_of_not_contains k s st hfresh
    have hnoidx2 : ∀ p ∈ st ++ [(k, s)], isArrayIndexKey p.1 = false := by
      intro p hp
      rcases List.mem_append.mp hp with hp | hp
      · exact hnoidx p hp
      · rw [List.mem_singleton] at hp
        subst hp
        exact hkidx
    have hlen1 : (st ++ [(k, s)]).length = MAX_CACHE_SIZE + 1 := by
      simp only [List.length_append, List.length_cons, List.length_nil]
      omega
    have heq : setCachedScore k s st = st.drop 1 ++ [(k, s)] := by
      rw [setCachedScore, happ, saveScoreCache, objectKeysOrder_of_no_index hnoidx2,
        if_pos (by omega), hlen1]
      rw [show MAX_CACHE_SIZE + 1 - MAX_CACHE_SIZE = 1 by omega]
      rw [List.drop_append_of_le_length (by omega)]
    refine ⟨heq, ?_⟩
    rw [heq]
    simp only [List.length_append, List.length_drop, List.length_cons, List.length_nil]
    omega

/-- Witness for C7 (amended): with no array-index keys present, the 2001st
insertion into a full cache of 2000 entries evicts exactly the oldest entry. -/
theorem durable_cache_capacity_witness :
    ((∀ p ∈ List.replicate 2000 (("a", (0 : ℤ))), isArrayIndexKey p.1 = false) ∧
      isArrayIndexKey "b" = false ∧
      (List.replicate 2000 (("a", (0 : ℤ)))).length = MAX_CACHE_SIZE ∧
      containsKey (List.replicate 2000 (("a", (0 : ℤ)))) "b" = false) ∧
    (setCachedScore "b" 7 (List.replicate 2000 (("a", (0 : ℤ)))) =
        (List.replicate 2000 (("a", (0 : ℤ)))).drop 1 ++ [("b", 7)] ∧
      (setCachedScore "b" 7 (List.replicate 2000 (("a", (0 : ℤ))))).length = MAX_CACHE_SIZE) :=
  ⟨⟨fun p hp => by
      rw [List.mem_replicate] at hp
      rw [hp.2]
      decide,
    by decide, by rw [List.length_replicate]; rfl,
    containsKey_replicate (0 : ℤ) (by decide) 2000⟩,
   durable_cache_capacity.2.2 (List.replicate 2000 (("a", (0 : ℤ)))) "b" 7
     (fun p hp => by
       rw [List.mem_replicate] at hp
       rw [hp.2]
       decide)
     (by decide) (by rw [List.length_replicate]; rfl)
     (containsKey_replicate (0 : ℤ) (by decide) 2000)⟩

/-- C8: the dominance rule of the generic pass: an element with some direct
child whose trimmed text is at least 70% of the element's total trimmed text is
rejected by `isScorable`; an element that meets the minimum length and whose
direct children all stay below the 70% share and below the block-child limit is
accepted. -/
theorem isScorable_dominance :
    (∀ (minLen : ℕ) (el : DomNode),
      (∃ child ∈ childElements el, 7 * trimmedTextLength el ≤ 10 * trimmedTextLength child) →
      isScorable minLen el = false) ∧
    (∀ (minLen : ℕ) (el : DomNode), minLen ≤ trimmedTextLength el →
      (∀ child ∈ childElements el, 10 * trimmedTextLength child < 7 * trimmedTextLength el ∧
        ¬(blockTags.contains (tagName child) = true ∧ 100 < trimmedTextLength child)) →
      isScorable minLen el = true) := by
  constructor
  · rintro minLen el ⟨child, hc, hdom⟩
    simp only [isScorable]
    split_ifs with h
    · rfl
    · rw [List.all_eq_false]
      refine ⟨child, hc, ?_⟩
      simp [hdom]
  · intro minLen el hged hall
    simp only [isScorable]
    rw [if_neg (by omega), List.all_eq_true]
    intro child hc
    obtain ⟨h1, h2⟩ := hall child hc
    have hb1 : decide (7 * trimmedTextLength el ≤ 10 * trimmedTextLength child) = false := by
      simp only [decide_eq_false_iff_not, not_le]
      omega
    have hb2 : (blockTags.contains (tagName child) && decide (100 < trimmedTextLength child)) =
        false := by
      by_cases hbt : blockTags.contains (tagName child) = true
      · have : ¬ 100 < trimmedTextLength child := fun hgt => h2 ⟨hbt, hgt⟩
        simp [hbt, this]
      · simp [Bool.not_eq_true] at hbt
        simp [hbt]
    rw [hb1, hb2]
    rfl

/-- Witness for C8: the wrapper whose single element child holds 90 of its 100
characters is rejected, while the child itself (90 ≥ 80 characters, no element
children) is accepted. -/
theorem isScorable_dominance_witness :
    ((∃ child ∈ childElements domParentExample,
        7 * trimmedTextLength domParentExample ≤ 10 * trimmedTextLength child) ∧
      isScorable 80 domParentExample = false) ∧
    ((80 ≤ trimmedTextLength domChildExample ∧
        (∀ child ∈ childElements domChildExample,
          10 * trimmedTextLength child < 7 * trimmedTextLength domChildExample ∧
          ¬(blockTags.contains (tagName child) = true ∧ 100 < trimmedTextLength child))) ∧
      isScorable 80 domChildExample = true) :=
  ⟨⟨⟨domChildExample, by decide, by decide⟩,
    isScorable_dominance.1 80 domParentExample ⟨domChildExample, by decide, by decide⟩⟩,
   ⟨⟨by decide, by decide⟩,
    isScorable_dominance.2 80 domChildExample (by decide) (by decide)⟩⟩

/-- A pass-1 candidate block carries the content key of its element. -/
theorem pass1Candidate_hash {el : ScanElem} {b : TextBlock}
    (h : pass1Candidate el = some b) : b.hash = elHash el := by
  simp only [pass1Candidate] at h
  split_ifs at h
  · injection h with h'
    subst h'
    rfl

/-- A pass-2 candidate block carries the content key of its element. -/
theorem pass2Candidate_hash {m : ℕ} {el : ScanElem} {b : TextBlock}
    (h : pass2Candidate m el = some b) : b.hash = elHash el := by
  simp only [pass2Candidate] at h
  split_ifs at h
  · injection h with h'
    subst h'
    rfl

/-- Adding a key to the seen set preserves the keys already seen. -/
theorem contains_cons_of_contains {h x : String} {seen : List String}
    (hx : seen.contains x = true) : (h :: seen).contains x = true := by
  simp only [List.contains_cons, hx, Bool.or_true]

/-- Deduplicating against a larger input splits along the concatenation, the
second part deduplicated against the keys the first part has claimed. -/
theorem dedupByHash_append (l₁ l₂ : List TextBlock) : ∀ seen : List String,
    dedupByHash (l₁ ++ l₂) seen = dedupByHash l₁ seen ++ dedupByHash l₂ (dedupSeen l₁ seen) := by
  induction l₁ with
  | nil => intro seen; simp [dedupByHash, dedupSeen]
  | cons b rest ih =>
    intro seen
    by_cases h : seen.contains b.hash = true
    · simp only [List.cons_append, dedupByHash, dedupSeen, if_pos h]
      exact ih seen
    · simp only [List.cons_append, dedupByHash, dedupSeen, if_neg h, List.append_eq]
      rw [ih (b.hash :: seen)]

/-- The deduplicated stream has pairwise-distinct content keys, none of them
among the keys already seen. -/
theorem dedupByHash_nodup : ∀ (l : List TextBlock) (seen : List String),
    ((dedupByHash l seen).map TextBlock.hash).Nodup ∧
    (∀ b ∈ dedupByHash l seen, seen.contains b.hash = false) := by
  intro l
  induction l with
  | nil => intro seen; simp [dedupByHash]
  | cons b rest ih =>
    intro seen
    by_cases h : seen.contains b.hash = true
    · simp only [dedupByHash, if_pos h]
      exact ih seen
    · simp only [dedupByHash, if_neg h]
      obtain ⟨ihn, ihs⟩ := ih (b.hash :: seen)
      constructor
      · rw [List.map_cons, List.nodup_cons]
        refine ⟨?_, ihn⟩
        intro hmem
        obtain ⟨b', hb', hbh⟩ := List.mem_map.mp hmem
        have hcontr := ihs b' hb'
        rw [List.contains_cons, hbh] at hcontr
        simp at hcontr
      · intro b' hb'
        rcases List.mem_cons.mp hb' with rfl | hb'
        · simpa using h
        · have := ihs b' hb'
          simp only [List.contains_cons, Bool.or_eq_false_iff] at this
          exact this.2

/-- Folding pass 1 appends exactly the first-seen-wins deduplication of its
candidate stream, extends the seen-key set accordingly, and keeps every claimed
element's key in the seen-key set. -/
theorem pass1_fold (p1 : List ScanElem) : ∀ st : ScanState,
    (p1.foldl pass1Step st).results =
        st.results ++ dedupByHash (p1.filterMap pass1Candidate) st.seenHashes ∧
    (p1.foldl pass1Step st).seenHashes =
        dedupSeen (p1.filterMap pass1Candidate) st.seenHashes ∧
    ((∀ el ∈ st.seenElements, st.seenHashes.contains (elHash el) = true) →
      ∀ el ∈ (p1.foldl pass1Step st).seenElements,
        (p1.foldl pass1Step st).seenHashes.contains (elHash el) = true) := by
  induction p1 with
  | nil => intro st; exact ⟨by simp [dedupByHash], rfl, fun h => h⟩
  | cons el rest ih =>
    intro st
    rw [List.foldl_cons]
    by_cases hlen : TARGETED_MIN_LENGTH ≤ (elNormalized el).length
    · have hcand : (el :: rest).filterMap pass1Candidate =
          ⟨hashText (elNormalized el), elNormalized el, el.eid⟩ :: rest.filterMap pass1Candidate := by
        simp [List.filterMap_cons, pass1Candidate, if_pos hlen]
      by_cases hseen : st.seenHashes.contains (hashText (elNormalized el)) = true
      · have hstep : pass1Step st el = st := by
          simp only [pass1Step, if_pos hlen, hseen]
          rfl
        rw [hstep, hcand]
        obtain ⟨ih1, ih2, ih3⟩ := ih st
        refine ⟨?_, ?_, ih3⟩
        · rw [ih1]
          simp only [dedupByHash, if_pos hseen]
        · rw [ih2]
          simp only [dedupSeen, if_pos hseen]
      · have hstep : pass1Step st el =
            ⟨st.results ++ [⟨hashText (elNormalized el), elNormalized el, el.eid⟩],
              hashText (elNormalized el) :: st.seenHashes, el :: st.seenElements⟩ := by
          simp only [pass1Step, if_pos hlen, hseen]
          rfl
        rw [hstep, hcand]
        obtain ⟨ih1, ih2, ih3⟩ :=
          ih ⟨st.results ++ [⟨hashText (elNormalized el), elNormalized el, el.eid⟩],
            hashText (elNormalized el) :: st.seenHashes, el :: st.seenElements⟩
        refine ⟨?_, ?_, ?_⟩
        · rw [ih1]
          simp only [dedupByHash, if_neg hseen]
          simp
        · rw [ih2]
          simp only [dedupSeen, if_neg hseen]
        · intro hInv
          refine ih3 ?_
          intro e he
          rcases List.mem_cons.mp he with rfl | he
          · simp only [elHash]
            simp [List.contains_cons]
          · exact contains_cons_of_contains (hInv e he)
    · have hstep : pass1Step st el = st := by
        simp only [pass1Step, if_neg hlen]
      have hcand : (el :: rest).filterMap pass1Candidate = rest.filterMap pass1Candidate := by
        simp [List.filterMap_cons, pass1Candidate, if_neg hlen]
      rw [hstep, hcand]
      exact ih st

/-- Folding pass 2 over a state whose claimed elements' keys are all seen
appends exactly the first-seen-wins deduplication of its candidate stream. -/
theorem pass2_fold (m : ℕ) (p2 : List ScanElem) : ∀ st : ScanState,
    (∀ el ∈ st.seenElements, st.seenHashes.contains (elHash el) = true) →
    (p2.foldl (pass2Step m) st).results =
      st.results ++ dedupByHash (p2.filterMap (pass2Candidate m)) st.seenHashes := by
  induction p2 with
  | nil => intro st _; simp [dedupByHash]
  | cons el rest ih =>
    intro st hInv
    rw [List.foldl_cons]
    by_cases hA : st.seenElements.contains el = true
    · -- element already claimed in pass 1: skipped, and its key is already seen
      have hstep : pass2Step m st el = st := by
        simp only [pass2Step, hA]
        rfl
      rw [hstep]
      have hkey : st.seenHashes.contains (elHash el) = true := by
        refine hInv el ?_
        simpa using hA
      rcases hcand : pass2Candidate m el with _ | b
      · rw [List.filterMap_cons, hcand]
        exact ih st hInv
      · rw [List.filterMap_cons, hcand]
        have hbh : b.hash = elHash el := pass2Candidate_hash hcand
        simp only [dedupByHash, hbh, if_pos hkey]
        exact ih st hInv
    · by_cases hB : isScorable m el.node = true
      · by_cases hC : m ≤ (elNormalized el).length
        · have hcand : (el :: rest).filterMap (pass2Candidate m) =
              ⟨hashText (elNormalized el), elNormalized el, el.eid⟩ ::
                rest.filterMap (pass2Candidate m) := by
            simp [List.filterMap_cons, pass2Candidate, hB, hC]
          by_cases hD : st.seenHashes.contains (hashText (elNormalized el)) = true
          · have hstep : pass2Step m st el = st := by
              simp only [pass2Step, hA, hB, if_pos hC, hD]
              simp
            rw [hstep, hcand]
            simp only [dedupByHash, if_pos hD]
            exact ih st hInv
          · have hstep : pass2Step m st el =
                ⟨st.results ++ [⟨hashText (elNormalized el), elNormalized el, el.eid⟩],
                  hashText (elNormalized el) :: st.seenHashes, st.seenElements⟩ := by
              simp only [pass2Step, hA, hB, if_pos hC, hD]
              simp
            rw [hstep, hcand]
            have ih1 := ih ⟨st.results ++ [⟨hashText (elNormalized el), elNormalized el, el.eid⟩],
                hashText (elNormalized el) :: st.seenHashes, st.seenElements⟩
              (fun e he => contains_cons_of_contains (hInv e he))
            rw [ih1]
            simp only [dedupByHash, if_neg hD]
            simp
        · have hstep : pass2Step m st el = st := by
            simp only [pass2Step, hA, hB, if_neg hC]
            simp
          have hcand : (el :: rest).filterMap (pass2Candidate m) =
              rest.filterMap (pass2Candidate m) := by
            simp [List.filterMap_cons, pass2Candidate, hC]
          rw [hstep, hcand]
          exact ih st hInv
      · have hstep : pass2Step m st el = st := by
          simp only [pass2Step, hA, hB]
          simp
        have hcand : (el :: rest).filterMap (pass2Candidate m) =
            rest.filterMap (pass2Candidate m) := by
          simp [List.filterMap_cons, pass2Candidate, hB]
        rw [hstep, hcand]
        exact ih st hInv

/-- C9: within a single `scanDOM` call the returned blocks are exactly the
first-seen-wins deduplication by content key of the raw candidate stream of
both passes (so later duplicates are dropped), and in particular no two
returned blocks share a content key. -/
theorem scanDOM_dedup :
    (∀ (minLen : ℕ) (p1 p2 : List ScanElem) (b : Bool),
      scanDOM minLen p1 p2 b = dedupByHash (scanCandidates minLen p1 p2 b) []) ∧
    (∀ (minLen : ℕ) (p1 p2 : List ScanElem) (b : Bool),
      ((scanDOM minLen p1 p2 b).map TextBlock.hash).Nodup) := by
  have href : ∀ (minLen : ℕ) (p1 p2 : List ScanElem) (b : Bool),
      scanDOM minLen p1 p2 b = dedupByHash (scanCandidates minLen p1 p2 b) [] := by
    intro minLen p1 p2 b
    obtain ⟨h1, h2, h3⟩ := pass1_fold p1 ⟨[], [], []⟩
    cases b
    · -- full two-pass scan
      have hInv1 := h3 (by intro e he; simp at he)
      have h4 := pass2_fold minLen p2 (p1.foldl pass1Step ⟨[], [], []⟩) hInv1
      simp only [scanDOM, scanCandidates, Bool.false_eq_true, if_neg, ite_false]
      rw [h4, h1, h2]
      rw [dedupByHash_append]
      simp
    · -- pass-1-only scan
      simp only [scanDOM, scanCandidates, ite_true]
      rw [h1]
      simp [dedupByHash_append]
  refine ⟨href, fun minLen p1 p2 b => ?_⟩
  rw [href minLen p1 p2 b]
  exact (dedupByHash_nodup (scanCandidates minLen p1 p2 b) []).1
